import Mathlib

/-!
# Verification of `build_kmls.py`

Shallow embedding of the KML-normalisation script `src/build_kmls.py` and
proofs of the specification claims about it.

Modelling conventions:
* Python strings are modelled as Lean `String` / `List Char`.  The Python
  whitespace class (used by `str.strip`, `str.split()` and the regex `\s`)
  is modelled by `pyIsSpace`, which lists exactly the code points CPython
  treats as `str` whitespace.
* Python `float(...)` values are modelled exactly, as a decimal mantissa and
  a power-of-ten exponent (`PyFloat`).  CPython rounds the decimal value to
  the nearest IEEE double; the script never computes with the values (they
  are carried through verbatim into the output), so the exact-decimal
  idealisation is observationally faithful for everything proved here.
* `xml.etree.ElementTree` trees are modelled by `Element`; all path queries
  in the script use the `{*}` namespace wildcard, so matching is on local
  tag names only, mirroring the script exactly.
-/

namespace BuildKmls

/-- CPython's `str` whitespace class: the code points for which
`str.isspace()` holds, used by `str.strip()`, no-argument `str.split()` and
the regex class `\s` on `str` patterns. -/
def pyIsSpace (c : Char) : Bool :=
  [32, 9, 10, 11, 12, 13, 28, 29, 30, 31, 0x85, 0xa0, 0x1680,
   0x2028, 0x2029, 0x202f, 0x205f, 0x3000].contains c.toNat
  || (0x2000 ≤ c.toNat && c.toNat ≤ 0x200a)

/-- The regex class `[a-zA-Z0-9_]` from `slugify`. -/
def isWordChar (c : Char) : Bool :=
  (97 ≤ c.toNat && c.toNat ≤ 122) || (65 ≤ c.toNat && c.toNat ≤ 90)
  || (48 ≤ c.toNat && c.toNat ≤ 57) || c.toNat = 95

/-- Characters matching `[a-z0-9_]`: what may appear in a finished slug. -/
def isLowerWord (c : Char) : Bool :=
  (97 ≤ c.toNat && c.toNat ≤ 122) || (48 ≤ c.toNat && c.toNat ≤ 57)
  || c.toNat = 95

/-- ASCII lower-casing of one character.  `slugify` applies `.lower()` to a
string whose characters all lie in `[A-Za-z0-9_]` (every other character has
been replaced by `_` at that point), and on that subset CPython's
Unicode-aware `str.lower()` agrees with ASCII lower-casing. -/
def pyLower (c : Char) : Char :=
  if 65 ≤ c.toNat ∧ c.toNat ≤ 90 then Char.ofNat (c.toNat + 32) else c

/-- `str.strip` with respect to a character class: drop matching characters
from both ends. -/
def stripWhile (p : Char → Bool) (l : List Char) : List Char :=
  ((l.dropWhile p).reverse.dropWhile p).reverse

mutual

/-- `re.sub(cls+, "_", s)`: replace every maximal run of characters matching
`p` by a single underscore.  (`subRunsSkip` consumes the rest of a run.) -/
def subRuns (p : Char → Bool) : List Char → List Char
  | [] => []
  | c :: cs => if p c then '_' :: subRunsSkip p cs else c :: subRuns p cs

/-- Helper of `subRuns`: the state after emitting the `_` for a run, still
discarding characters of that run. -/
def subRunsSkip (p : Char → Bool) : List Char → List Char
  | [] => []
  | c :: cs => if p c then subRunsSkip p cs else c :: subRuns p cs

end

/-- The substitution pipeline of `slugify` before the `or "distrito"`
fallback: `strip`, `re.sub(r"\s+", "_")`, `re.sub(r"[^a-zA-Z0-9_]+", "_")`,
`re.sub(r"_+", "_")`, `.strip("_")`, `.lower()`. -/
def slugifyCore (l : List Char) : List Char :=
  let v1 := stripWhile pyIsSpace l
  let v2 := subRuns pyIsSpace v1
  let v3 := subRuns (fun c => ! isWordChar c) v2
  let v4 := subRuns (fun c => c = '_') v3
  let v5 := stripWhile (fun c => c = '_') v4
  v5.map pyLower

/-- `slugify` on character lists: `return v.lower() or "distrito"`. -/
def slugifyL (l : List Char) : List Char :=
  if slugifyCore l = [] then "distrito".data else slugifyCore l

/-- `slugify` from `build_kmls.py`. -/
def slugify (s : String) : String := ⟨slugifyL s.data⟩

mutual

/-- An `xml.etree.ElementTree` element: namespace URI (if any), local tag
name, text, and child elements.  Every path query in the script uses the
`{*}` namespace wildcard, so only the local tag name is ever matched.
(`Element`/`ElementList` are a mutual pair rather than an element with a
`List Element` field so that functions over trees are structurally
recursive.) -/
inductive Element : Type where
  | mk (ns : Option String) (tag : String) (text : Option String)
       (children : ElementList)

/-- A list of sibling elements in document order. -/
inductive ElementList : Type where
  | nil
  | cons (e : Element) (es : ElementList)

end

/-- Build an `ElementList` from a `List Element`. -/
def elist : List Element → ElementList
  | [] => .nil
  | e :: es => .cons e (elist es)

/-- Local tag name of an element. -/
def Element.tagOf : Element → String
  | .mk _ t _ _ => t

/-- The `.text` attribute of an element. -/
def Element.textOf : Element → Option String
  | .mk _ _ x _ => x

/-- Direct children of an element, as a plain list. -/
def ElementList.toList : ElementList → List Element
  | .nil => []
  | .cons e es => e :: es.toList

/-- Direct children of an element. -/
def Element.childrenOf : Element → List Element
  | .mk _ _ _ cs => cs.toList

mutual

/-- Strict descendants of an element in document order (pre-order): the
elements an ElementTree `.//` path step enumerates (`elem.iter()` minus the
element itself). -/
def Element.descendants : Element → List Element
  | .mk _ _ _ cs => cs.desc

/-- Descendants-with-self of a forest: each element followed by its own
strict descendants, in document order. -/
def ElementList.desc : ElementList → List Element
  | .nil => []
  | .cons e es => e :: (e.descendants ++ es.desc)

end

/-- A `{*}tag` step applied to all descendants: the ElementTree selector
`.//{*}tag`. -/
def findDesc (t : String) (e : Element) : List Element :=
  e.descendants.filter (fun d => d.tagOf = t)

/-- A `{*}tag` child step: filters direct children by local tag name. -/
def childTag (t : String) (e : Element) : List Element :=
  e.childrenOf.filter (fun d => d.tagOf = t)

/-- The value of a successful Python `float(...)` conversion, modelled
exactly: `finite m e` is the decimal value `m * 10 ^ e` (CPython rounds it
to the nearest IEEE double; the script only carries the values through, so
the exact form is observationally equivalent here).  The sign of `-0.0` and
of `-nan` is not tracked, and CPython's acceptance of non-ASCII decimal
digits is out of scope. -/
inductive PyFloat : Type where
  | finite (mantissa : Int) (exp10 : Int)
  | inf (neg : Bool)
  | nan
deriving DecidableEq, Repr

/-- The numeric value of a digit string, most significant first. -/
def natOfDigits (ds : List Char) : Nat :=
  ds.foldl (fun a c => 10 * a + (c.toNat - 48)) 0

/-- Consume a maximal CPython digit group: digits with single underscores
allowed only between two digits (PEP 515).  Returns the digits (underscores
removed) and the unconsumed remainder. -/
def consumeDigits : List Char → List Char × List Char
  | [] => ([], [])
  | c :: '_' :: d :: rest =>
    if c.isDigit then
      if d.isDigit then
        let p := consumeDigits (d :: rest)
        (c :: p.1, p.2)
      else ([c], '_' :: d :: rest)
    else ([], c :: '_' :: d :: rest)
  | c :: cs =>
    if c.isDigit then
      let p := consumeDigits cs
      (c :: p.1, p.2)
    else ([], c :: cs)

/-- Parse the body of a Python `float(...)` literal after the optional sign
has been removed: `inf`/`infinity`/`nan` (ASCII case-insensitive) or a
decimal literal `digits[.digits][(e|E)[sign]digits]` with at least one
mantissa digit and no trailing junk. -/
def parseFloatBody (l : List Char) (neg : Bool) : Option PyFloat :=
  if l.map pyLower = "inf".data ∨ l.map pyLower = "infinity".data then
    some (.inf neg)
  else if l.map pyLower = "nan".data then
    some .nan
  else
    let ipr := consumeDigits l
    let fpr : List Char × List Char :=
      match ipr.2 with
      | '.' :: rest => consumeDigits rest
      | _ => ([], ipr.2)
    if ipr.1 = [] ∧ fpr.1 = [] then none
    else
      let mant : Int :=
        if neg then -(natOfDigits (ipr.1 ++ fpr.1) : Int)
        else (natOfDigits (ipr.1 ++ fpr.1) : Int)
      match fpr.2 with
      | [] => some (.finite mant (-(fpr.1.length : Int)))
      | c :: rest =>
        if c = 'e' ∨ c = 'E' then
          let sr : Bool × List Char :=
            match rest with
            | '+' :: rest2 => (false, rest2)
            | '-' :: rest2 => (true, rest2)
            | _ => (false, rest)
          let er := consumeDigits sr.2
          if er.1 = [] ∨ er.2 ≠ [] then none
          else
            let ev : Int :=
              if sr.1 then -(natOfDigits er.1 : Int) else (natOfDigits er.1 : Int)
            some (.finite mant (ev - (fpr.1.length : Int)))
        else none

/-- CPython `float(str)`: strip surrounding whitespace, take one optional
sign, then parse the body. -/
def pyFloatOfChars (l : List Char) : Option PyFloat :=
  match stripWhile pyIsSpace l with
  | '+' :: rest => parseFloatBody rest false
  | '-' :: rest => parseFloatBody rest true
  | l1 => parseFloatBody l1 false

/-- A parsed coordinate: `(longitude, latitude)`. -/
abbrev Pt := PyFloat × PyFloat

/-- Python `str.split(",")` on character lists: split at every comma,
keeping empty fields (`"a,,b" ↦ ["a", "", "b"]`, `"" ↦ [""]`). -/
def splitComma : List Char → List (List Char)
  | [] => [[]]
  | c :: cs =>
    if c = ',' then [] :: splitComma cs
    else
      match splitComma cs with
      | t :: ts => (c :: t) :: ts
      | [] => [[c]]

mutual

/-- No-argument Python `str.split()`: the maximal whitespace-free tokens of
a string, in order, with empty tokens discarded. -/
def wsTokens : List Char → List (List Char)
  | [] => []
  | c :: cs =>
    if pyIsSpace c then wsTokens cs
    else (c :: cs.takeWhile (fun d => ! pyIsSpace d)) :: wsTokensAfter cs

/-- Helper of `wsTokens`: skip the remainder of the current token, then
continue splitting. -/
def wsTokensAfter : List Char → List (List Char)
  | [] => []
  | c :: cs => if pyIsSpace c then wsTokens cs else wsTokensAfter cs

end

/-- The body of the token loop of `_parse_coordinates` after
`parts = token.split(",")`: `if len(parts) >= 2`, convert `parts[0]` and
`parts[1]` with `float(...)`; a `ValueError` in either conversion skips the
token (`continue`). -/
def coordOfParts (parts : List (List Char)) : Option Pt :=
  if h : 2 ≤ parts.length then
    match pyFloatOfChars (parts.get ⟨0, by omega⟩),
          pyFloatOfChars (parts.get ⟨1, by omega⟩) with
    | some lon, some lat => some (lon, lat)
    | _, _ => none
  else none

/-- One iteration of the token loop in `_parse_coordinates`: split the
token on commas; if it has at least two fields and both `float(...)`
conversions succeed, produce the point `(lon, lat)` (a third altitude field
is ignored), otherwise produce nothing. -/
def coordOfToken (token : List Char) : Option Pt :=
  coordOfParts (splitComma token)

/-- `_parse_coordinates` from `build_kmls.py`.  The argument is the `.text`
of a `coordinates` element, which may be `None`: `if not coord_text` drops
both `None` and the empty string.  The code then strips the text, replaces
newlines and tabs by spaces, splits on whitespace, and folds the token loop
(modelled by `filterMap coordOfToken`). -/
def parseCoordinates (coord_text : Option String) : List Pt :=
  match coord_text with
  | none => []
  | some s =>
    if s = "" then []
    else
      let processed :=
        ((stripWhile pyIsSpace s.data).map
            (fun c => if c = '\n' then ' ' else c)).map
          (fun c => if c = '\t' then ' ' else c)
      (wsTokens processed).filterMap coordOfToken

/-- A ring: an ordered sequence of parsed points. -/
abbrev Ring := List Pt

/-- A polygon as collected by `_collect_polygons_from_xml`:
`{"outer": ..., "inners": ...}`. -/
structure Polygon where
  outer : Ring
  inners : List Ring
deriving DecidableEq, Repr

/-- Python string strip of whitespace, on `String`. -/
def pyStrip (s : String) : String := ⟨stripWhile pyIsSpace s.data⟩

/-- `not (el.text or "").strip()`: the optional text is blank (absent,
empty, or whitespace only). -/
def blankText (t : Option String) : Bool :=
  pyStrip (t.getD "") = ""

/-- The selector `poly.find(".//{*}outerBoundaryIs/{*}LinearRing/{*}coordinates")`:
first match of descendant `outerBoundaryIs`, child `LinearRing`, child
`coordinates`, in document order. -/
def outerCoordsEl (poly : Element) : Option Element :=
  (((findDesc "outerBoundaryIs" poly).flatMap (childTag "LinearRing")).flatMap
      (childTag "coordinates")).head?

/-- The fallback selector `poly.find(".//{*}LinearRing/{*}coordinates")`. -/
def fallbackCoordsEl (poly : Element) : Option Element :=
  ((findDesc "LinearRing" poly).flatMap (childTag "coordinates")).head?

/-- The selector
`poly.findall(".//{*}innerBoundaryIs/{*}LinearRing/{*}coordinates")`. -/
def innerCoordsEls (poly : Element) : List Element :=
  ((findDesc "innerBoundaryIs" poly).flatMap (childTag "LinearRing")).flatMap
    (childTag "coordinates")

/-- Lines 49-51 of `build_kmls.py`: the element whose text becomes the
outer ring.  The conventional nested selector is used, but when it finds
nothing or the found element's text is blank
(`outer_coords_el is None or not (outer_coords_el.text or "").strip()`),
the code falls back to the first descendant `LinearRing/coordinates`. -/
def selectedOuterEl (poly : Element) : Option Element :=
  match outerCoordsEl poly with
  | some el => if blankText el.textOf then fallbackCoordsEl poly else some el
  | none => fallbackCoordsEl poly

/-- Lines 55-58 of `build_kmls.py`: the inner rings of one polygon.  An
inner `coordinates` element contributes its parse exactly when its text is
present and non-blank (`if inner.text and inner.text.strip()`). -/
def collectedInners (poly : Element) : List Ring :=
  (innerCoordsEls poly).filterMap fun inn =>
    match inn.textOf with
    | some t => if t ≠ "" ∧ pyStrip t ≠ "" then some (parseCoordinates (some t))
                else none
    | none => none

/-- The body of the per-`Polygon` loop of `_collect_polygons_from_xml`:
locate the outer `coordinates` element, parse it, collect inner rings, and
keep the polygon only if the outer ring is non-empty (`if outer:`). -/
def processPoly (poly : Element) : Option Polygon :=
  match selectedOuterEl poly with
  | none => none
  | some el =>
    let outer := parseCoordinates el.textOf
    if outer ≠ [] then some ⟨outer, collectedInners poly⟩ else none

/-- `_collect_polygons_from_xml` from `build_kmls.py`: process every
descendant `Polygon` element in document order. -/
def collectPolygons (root : Element) : List Polygon :=
  (findDesc "Polygon" root).filterMap processPoly

/-- `_findtext`, specialised to a precomputed `element.find(path)` result:
`el.text.strip() if el is not None and el.text else None`. -/
def findtextOf (el : Option Element) : Option String :=
  match el with
  | some e =>
    match e.textOf with
    | some t => if t ≠ "" then some (pyStrip t) else none
    | none => none
  | none => none

/-- The selector `root.find(".//{*}Placemark/{*}name")`. -/
def placemarkNameEl (root : Element) : Option Element :=
  ((findDesc "Placemark" root).flatMap (childTag "name")).head?

/-- The selector `root.find(".//{*}Document/{*}name")`. -/
def documentNameEl (root : Element) : Option Element :=
  ((findDesc "Document" root).flatMap (childTag "name")).head?

/-- Python truthiness of an optional string: `None` and `""` are falsy. -/
def truthyStr : Option String → Bool
  | none => false
  | some s => s ≠ ""

/-- `_best_name_from_xml` from `build_kmls.py`: first placemark name if
truthy, else document name if truthy, else the fallback. -/
def bestNameFromXml (root : Element) (fallback : String) : String :=
  let nm1 := findtextOf (placemarkNameEl root)
  if truthyStr nm1 then nm1.getD ""
  else
    let nm2 := findtextOf (documentNameEl root)
    if truthyStr nm2 then nm2.getD "" else fallback

/-- The simplekml style record built once per `normalize_kml_file` call:
`polystyle.color`, `polystyle.fill`, `polystyle.outline`. -/
structure Style where
  color : String
  fill : Nat
  outline : Nat
deriving DecidableEq, Repr

/-- One hexadecimal digit. -/
def hexDigit (n : Nat) : Char :=
  if n < 10 then Char.ofNat (48 + n) else Char.ofNat (87 + n)

/-- `simplekml.Color.changealphaint(alpha, color)`: replace the leading
two-hex-digit alpha component of an `aabbggrr` colour string. -/
def changealphaint (alpha : Nat) (color : String) : String :=
  ⟨[hexDigit (alpha / 16), hexDigit (alpha % 16)] ++ color.data.drop 2⟩

/-- `simplekml.Color.red` (`aabbggrr`). -/
def colorRed : String := "ff0000ff"

/-- The one shared style of `normalize_kml_file`: red fill at alpha 120,
fill and outline enabled. -/
def sharedStyle : Style :=
  { color := changealphaint 120 colorRed, fill := 1, outline := 1 }

/-- A styled polygon feature as built by `put_polygon`: simplekml
`newpolygon` with a name, `outerboundaryis`, `innerboundaryis` (left at its
default `[]` when the collected inner list is empty) and a style. -/
structure PolyFeature where
  name : String
  outer : Ring
  inners : List Ring
  style : Style
deriving DecidableEq, Repr

/-- A top-level feature of the emitted document: either a single styled
polygon or a named multi-geometry grouping of styled polygons (the script
never nests deeper than this). -/
inductive Feature : Type where
  | polygon (p : PolyFeature)
  | multigeometry (name : String) (subs : List PolyFeature)
deriving DecidableEq, Repr

/-- `put_polygon` from `normalize_kml_file`: build one styled polygon with
the shared style. -/
def putPolygon (nm : String) (outer : Ring) (inners : List Ring) : PolyFeature :=
  { name := nm, outer := outer, inners := inners, style := sharedStyle }

/-- The feature-building part of `normalize_kml_file`: one polygon becomes
a single polygon feature named `name`; otherwise a multi-geometry named
`name` holds one polygon per entry, named `f"{name} #{i}"` with `i`
counting from 1 in source order (`enumerate(polygons, start=1)`). -/
def emitFeatures (name : String) (polygons : List Polygon) : List Feature :=
  match polygons with
  | [p] => [.polygon (putPolygon name p.outer p.inners)]
  | ps =>
    [.multigeometry name
      ((ps.enumFrom 1).map fun ip =>
        putPolygon (name ++ " #" ++ toString ip.1) ip.2.outer ip.2.inners)]

/-- The result of `ET.parse(src_path)` on one input file: either the parse
raised (any exception, caught by the `except` clause of
`normalize_kml_file`) or it produced a document tree. -/
inductive ParseResult : Type where
  | parseError (msg : String)
  | parsed (root : Element)

/-- One discovered input file: its base name without extension
(`src_path.stem`) and what parsing it yields. -/
structure InputFile : Type where
  stem : String
  content : ParseResult

/-- The outcome of `normalize_kml_file` on one file: an output document
written at a path, or a warning-and-skip (`return None`) for a parse
failure or for a file without any usable polygon. -/
inductive FileOutcome : Type where
  | written (path : String) (doc : List Feature)
  | skippedParseError (msg : String)
  | skippedNoGeometry

/-- The fixed output directory `OUT_DIR`, relative to the repository. -/
def outDir : String := "web/kml/"

/-- `normalize_kml_file` from `build_kmls.py`: parse, collect polygons,
resolve name and slug, build the styled document, save it at
`OUT_DIR / f"{slug}.kml"`. -/
def normalizeKmlFile (f : InputFile) : FileOutcome :=
  match f.content with
  | .parseError m => .skippedParseError m
  | .parsed root =>
    let polygons := collectPolygons root
    if polygons = [] then .skippedNoGeometry
    else
      let name := bestNameFromXml root f.stem
      let slug := slugify name
      .written (outDir ++ slug ++ ".kml") (emitFeatures name polygons)

/-- The outputs actually written by a run over `files`, in order:
each file producing a `written` outcome contributes its path and document. -/
def writtenOutputs (files : List InputFile) : List (String × List Feature) :=
  files.filterMap fun f =>
    match normalizeKmlFile f with
    | .written p d => some (p, d)
    | _ => none

/-- The overall result of `main`: `fatal` models `raise SystemExit`
(which aborts before anything is processed or written), `completed` models
a run that processed every file and printed the final summary with the
count of written files. -/
inductive RunResult : Type where
  | fatal (msg : String)
  | completed (outputs : List (String × List Feature)) (okCount : Nat)

/-- `main` from `build_kmls.py`.  The input directory is modelled as
`none` when `IN_DIR` is missing or not a directory, and otherwise as the
recursively globbed list of `.kml` files in enumeration order. -/
def mainRun (inDir : Option (List InputFile)) : RunResult :=
  match inDir with
  | none => .fatal "input directory not found"
  | some [] => .fatal "no kml found"
  | some files => .completed (writtenOutputs files) (writtenOutputs files).length

/-- The state of the output directory: which document each path holds. -/
def Store := String → Option (List Feature)

/-- The empty output directory. -/
def emptyStore : Store := fun _ => none

/-- `kdoc.save(path)`: overwrite whatever the path held. -/
def saveAt (st : Store) (p : String) (d : List Feature) : Store :=
  fun q => if q = p then some d else st q

/-- The output directory after a run: each successfully processed file
saves its document at its path, in enumeration order. -/
def runStore (files : List InputFile) : Store :=
  files.foldl
    (fun st f =>
      match normalizeKmlFile f with
      | .written p d => saveAt st p d
      | _ => st)
    emptyStore

/-- The resolved display name when a token of text is "present and
non-blank": the stripped text of the found element, when the element
exists, has text, and that text is not whitespace-only. -/
def nonBlankText (el : Option Element) : Option String :=
  match el with
  | some e =>
    match e.textOf with
    | some t => if pyStrip t ≠ "" then some (pyStrip t) else none
    | none => none
  | none => none

/-- Claim C7's reading of the outer-ring lookup: use the nested-path
element whenever it is present, and fall back only when it is absent. -/
def selectedOuterElSpecC7 (poly : Element) : Option Element :=
  match outerCoordsEl poly with
  | some el => some el
  | none => fallbackCoordsEl poly

/-- The per-polygon extraction as claim C7 describes it: identical to
`processPoly` except that the fallback fires only when the nested-path
element is absent. -/
def processPolySpecC7 (poly : Element) : Option Polygon :=
  match selectedOuterElSpecC7 poly with
  | none => none
  | some el =>
    let outer := parseCoordinates el.textOf
    if outer ≠ [] then some ⟨outer, collectedInners poly⟩ else none

/-- The extractor as claim C7 describes it. -/
def collectPolygonsSpecC7 (root : Element) : List Polygon :=
  (findDesc "Polygon" root).filterMap processPolySpecC7

/-- The slug a file would resolve to, when it can be processed at all. -/
def fileSlug (f : InputFile) : Option String :=
  match f.content with
  | .parseError _ => none
  | .parsed root =>
    if collectPolygons root = [] then none
    else some (slugify (bestNameFromXml root f.stem))

/-! Concrete elements and files used as witnesses and counterexamples. -/

/-- A `coordinates` leaf with the given text. -/
def coordsEl (txt : Option String) : Element := .mk none "coordinates" txt (elist [])

/-- A `LinearRing` holding one `coordinates` leaf. -/
def lrEl (txt : Option String) : Element := .mk none "LinearRing" none (elist [coordsEl txt])

/-- An `outerBoundaryIs` wrapper. -/
def outerBEl (txt : Option String) : Element :=
  .mk none "outerBoundaryIs" none (elist [lrEl txt])

/-- An `innerBoundaryIs` wrapper. -/
def innerBEl (txt : Option String) : Element :=
  .mk none "innerBoundaryIs" none (elist [lrEl txt])

/-- A `Placemark` with a `name` child. -/
def pmEl (nm : String) : Element :=
  .mk none "Placemark" none (elist [.mk none "name" (some nm) (elist [])])

/-- A polygon whose outer boundary parses to two points. -/
def exPolygonEl : Element :=
  .mk none "Polygon" none (elist [outerBEl (some "1,2 3,4")])

def exRoot : Element := .mk none "kml" none (elist [exPolygonEl])

/-- Claim C7's counterexample polygon: the nested-path `coordinates`
element is present but blank, and an inner boundary with usable text comes
first in document order. -/
def cxPolygonEl : Element :=
  .mk none "Polygon" none (elist [innerBEl (some "5,6"), outerBEl (some " ")])

def cxRoot : Element := .mk none "kml" none (elist [cxPolygonEl])

/-- A polygon with a parseable outer ring and an inner boundary whose text
is non-blank but holds no parseable token. -/
def ex10PolygonEl : Element :=
  .mk none "Polygon" none (elist [outerBEl (some "1,2"), innerBEl (some "abc")])

/-- Two concrete polygons for exercising the emitter. -/
def exPolyA : Polygon := ⟨[(.finite 1 0, .finite 2 0)], []⟩

def exPolyB : Polygon := ⟨[(.finite 3 0, .finite 4 0)], [[(.finite 5 0, .finite 6 0)]]⟩

/-- Input files for the driver claims: a parse failure, a file without
geometry, and two well-formed files whose names slugify identically. -/
def badParseFile : InputFile := ⟨"bad", .parseError "boom"⟩

def noGeoFile : InputFile := ⟨"nogeo", .parsed (.mk none "kml" none (elist []))⟩

def rootA : Element :=
  .mk none "kml" none (elist [pmEl "Dist A",
    .mk none "Polygon" none (elist [outerBEl (some "1,2")])])

def rootB : Element :=
  .mk none "kml" none (elist [pmEl " dist a ",
    .mk none "Polygon" none (elist [outerBEl (some "3,4")])])

def fileA : InputFile := ⟨"fileA", .parsed rootA⟩

def fileB : InputFile := ⟨"fileB", .parsed rootB⟩

/-- The claim-level description of one token of coordinate text: split the
token on commas; a token with at least two fields whose first two fields
both parse as Python floats contributes exactly the point `(lon, lat)` (any
third altitude field is ignored); any other token contributes nothing. -/
def tokenPointSpec (token : List Char) : Option Pt :=
  match splitComma token with
  | f0 :: f1 :: _ =>
    match pyFloatOfChars f0, pyFloatOfChars f1 with
    | some lon, some lat => some (lon, lat)
    | _, _ => none
  | _ => none

/-- No two adjacent underscores. -/
def NoAdj (l : List Char) : Prop :=
  l.Chain' (fun a b => ¬(a = '_' ∧ b = '_'))

/-- The invariant of a finished slug: nonempty, only `[a-z0-9_]`, no two
adjacent underscores, and no underscore at either end. -/
def SlugP (l : List Char) : Prop :=
  l ≠ [] ∧ (∀ c ∈ l, isLowerWord c = true) ∧ NoAdj l ∧
  l.head? ≠ some '_' ∧ l.getLast? ≠ some '_'

/-! Sanity checks of the embedded operations on concrete inputs. -/

example : slugify "  Héllo   Wörld!!  " = "h_llo_w_rld" := by decide
example : slugify "???" = "distrito" := by decide
example : slugify "" = "distrito" := by decide
example : slugify "São Paulo - Centro" = "s_o_paulo_centro" := by decide

example : pyFloatOfChars "-12.5".data = some (.finite (-125) (-1)) := by decide
example : pyFloatOfChars "1e3".data = some (.finite 1 3) := by decide
example : pyFloatOfChars "1_000.25".data = some (.finite 100025 (-2)) := by decide
example : pyFloatOfChars "+.5E-2".data = some (.finite 5 (-3)) := by decide
example : pyFloatOfChars " Inf ".data = some (.inf false) := by decide
example : pyFloatOfChars "1.".data = some (.finite 1 0) := by decide
example : pyFloatOfChars "".data = none := by decide
example : pyFloatOfChars ".".data = none := by decide
example : pyFloatOfChars "1_".data = none := by decide
example : pyFloatOfChars "1e".data = none := by decide
example : pyFloatOfChars "--5".data = none := by decide
example : pyFloatOfChars "abc".data = none := by decide

example :
    parseCoordinates (some "1,2,50 \n bad 3.5,-4,0 5 ,6 7,") =
      [(.finite 1 0, .finite 2 0), (.finite 35 (-1), .finite (-4) 0)] := by
  decide

/-! ## Character-class lemmas -/

theorem toNat_ofNat_of_lt {n : Nat} (h : n < 0xd800) : (Char.ofNat n).toNat = n := by
  have hv : n.isValidChar := Or.inl h
  rw [Char.ofNat, dif_pos hv]
  simp [Char.ofNatAux, Char.toNat, UInt32.toNat, BitVec.toNat_ofNatLt]

theorem toNat_pyLower (c : Char) :
    (pyLower c).toNat = if 65 ≤ c.toNat ∧ c.toNat ≤ 90 then c.toNat + 32 else c.toNat := by
  unfold pyLower
  split
  case isTrue h => exact toNat_ofNat_of_lt (by omega)
  case isFalse h => rfl

theorem isLowerWord_not_space {c : Char} (h : isLowerWord c = true) :
    pyIsSpace c = false := by
  simp only [isLowerWord, Bool.or_eq_true, Bool.and_eq_true, decide_eq_true_eq] at h
  simp only [pyIsSpace, List.contains, Bool.or_eq_false_iff, Bool.and_eq_false_iff,
    List.elem_eq_mem, decide_eq_false_iff_not, List.mem_cons, List.not_mem_nil,
    or_false, not_le]
  omega

theorem isLowerWord_isWord {c : Char} (h : isLowerWord c = true) :
    isWordChar c = true := by
  simp only [isLowerWord, Bool.or_eq_true, Bool.and_eq_true, decide_eq_true_eq] at h
  simp only [isWordChar, Bool.or_eq_true, Bool.and_eq_true, decide_eq_true_eq]
  omega

theorem pyLower_fixed {c : Char} (h : isLowerWord c = true) : pyLower c = c := by
  unfold pyLower
  split
  case isTrue hr =>
    exfalso
    simp only [isLowerWord, Bool.or_eq_true, Bool.and_eq_true, decide_eq_true_eq] at h
    omega
  case isFalse hr => rfl

theorem isLowerWord_pyLower {c : Char} (h : isWordChar c = true) :
    isLowerWord (pyLower c) = true := by
  simp only [isWordChar, Bool.or_eq_true, Bool.and_eq_true, decide_eq_true_eq] at h
  simp only [isLowerWord, Bool.or_eq_true, Bool.and_eq_true, decide_eq_true_eq,
    toNat_pyLower]
  split <;> omega

theorem toNat_underscore : '_'.toNat = 95 := by decide

theorem pyLower_eq_underscore_iff {c : Char} : pyLower c = '_' ↔ c = '_' := by
  constructor
  · intro h
    have := congrArg Char.toNat h
    rw [toNat_pyLower] at this
    have h95 : c.toNat = 95 := by
      rw [toNat_underscore] at this
      split at this <;> omega
    have : Char.ofNat c.toNat = Char.ofNat 95 := by rw [h95]
    rwa [Char.ofNat_toNat] at this
  · intro h; subst h; rfl

/-! ## Lemmas about `subRuns` and `stripWhile` -/

theorem subRuns_eq_self {p : Char → Bool} :
    ∀ {l : List Char}, (∀ c ∈ l, p c = false) →
      subRuns p l = l ∧ subRunsSkip p l = l := by
  intro l
  induction l with
  | nil => intro _; exact ⟨rfl, rfl⟩
  | cons c cs ih =>
    intro h
    have hc : p c = false := h c (List.mem_cons_self c cs)
    have ihcs := ih (fun d hd => h d (List.mem_cons_of_mem c hd))
    constructor
    · simp [subRuns, hc, ihcs.1]
    · simp [subRunsSkip, hc, ihcs.1]

theorem mem_subRuns {p : Char → Bool} :
    ∀ {l : List Char},
      (∀ c ∈ subRuns p l, c = '_' ∨ (p c = false ∧ c ∈ l)) ∧
      (∀ c ∈ subRunsSkip p l, c = '_' ∨ (p c = false ∧ c ∈ l)) := by
  intro l
  induction l with
  | nil => exact ⟨by simp [subRuns], by simp [subRunsSkip]⟩
  | cons c cs ih =>
    refine ⟨fun d hd => ?_, fun d hd => ?_⟩
    · cases hpc : p c with
      | true =>
        simp only [subRuns, hpc, if_true, List.mem_cons] at hd
        rcases hd with rfl | hd
        · exact Or.inl rfl
        · rcases ih.2 d hd with h | ⟨h1, h2⟩
          · exact Or.inl h
          · exact Or.inr ⟨h1, List.mem_cons_of_mem c h2⟩
      | false =>
        simp only [subRuns, hpc, Bool.false_eq_true, if_false, List.mem_cons] at hd
        rcases hd with rfl | hd
        · exact Or.inr ⟨hpc, List.mem_cons_self _ _⟩
        · rcases ih.1 d hd with h | ⟨h1, h2⟩
          · exact Or.inl h
          · exact Or.inr ⟨h1, List.mem_cons_of_mem c h2⟩
    · cases hpc : p c with
      | true =>
        simp only [subRunsSkip, hpc, if_true] at hd
        rcases ih.2 d hd with h | ⟨h1, h2⟩
        · exact Or.inl h
        · exact Or.inr ⟨h1, List.mem_cons_of_mem c h2⟩
      | false =>
        simp only [subRunsSkip, hpc, Bool.false_eq_true, if_false, List.mem_cons] at hd
        rcases hd with rfl | hd
        · exact Or.inr ⟨hpc, List.mem_cons_self _ _⟩
        · rcases ih.1 d hd with h | ⟨h1, h2⟩
          · exact Or.inl h
          · exact Or.inr ⟨h1, List.mem_cons_of_mem c h2⟩

theorem subRunsSkip_head {p : Char → Bool} :
    ∀ {l : List Char} {c : Char}, (subRunsSkip p l).head? = some c → p c = false := by
  intro l
  induction l with
  | nil => intro c h; simp [subRunsSkip] at h
  | cons d ds ih =>
    intro c h
    by_cases hd : p d = true
    · simp only [subRunsSkip, hd, if_pos] at h
      exact ih h
    · simp only [subRunsSkip, hd, if_neg, Bool.not_eq_true, List.head?_cons,
        Option.some.injEq] at h
      subst h
      simpa using hd

theorem subRuns_cons_pos {p : Char → Bool} {c : Char} (cs : List Char)
    (h : p c = true) : subRuns p (c :: cs) = '_' :: subRunsSkip p cs := by
  simp [subRuns, h]

theorem subRuns_cons_neg {p : Char → Bool} {c : Char} (cs : List Char)
    (h : p c = false) : subRuns p (c :: cs) = c :: subRuns p cs := by
  simp [subRuns, h]

theorem subRunsSkip_cons_pos {p : Char → Bool} {c : Char} (cs : List Char)
    (h : p c = true) : subRunsSkip p (c :: cs) = subRunsSkip p cs := by
  simp [subRunsSkip, h]

theorem subRunsSkip_cons_neg {p : Char → Bool} {c : Char} (cs : List Char)
    (h : p c = false) : subRunsSkip p (c :: cs) = c :: subRuns p cs := by
  simp [subRunsSkip, h]

theorem noAdj_nil : NoAdj [] := List.chain'_nil

theorem noAdj_cons {c : Char} {cs : List Char} :
    NoAdj (c :: cs) ↔ (∀ y, cs.head? = some y → ¬(c = '_' ∧ y = '_')) ∧ NoAdj cs := by
  unfold NoAdj
  rw [List.chain'_cons']
  constructor
  · exact fun h => ⟨fun y hy => h.1 y (Option.mem_def.mpr hy), h.2⟩
  · exact fun h => ⟨fun y hy => h.1 y (Option.mem_def.mp hy), h.2⟩

/-- The underscore-collapsing pass produces no adjacent underscores. -/
theorem noAdj_subRuns_und :
    ∀ (l : List Char),
      NoAdj (subRuns (fun c => c = '_') l) ∧ NoAdj (subRunsSkip (fun c => c = '_') l) := by
  intro l
  induction l with
  | nil => exact ⟨noAdj_nil, noAdj_nil⟩
  | cons c cs ih =>
    constructor
    · by_cases hc : c = '_'
      · rw [subRuns_cons_pos cs (by simp [hc])]
        rw [noAdj_cons]
        refine ⟨fun y hy hcon => ?_, ih.2⟩
        have := subRunsSkip_head hy
        simp only [decide_eq_false_iff_not] at this
        exact this hcon.2
      · rw [subRuns_cons_neg cs (by simp [hc])]
        rw [noAdj_cons]
        exact ⟨fun y _ hcon => hc hcon.1, ih.1⟩
    · by_cases hc : c = '_'
      · rw [subRunsSkip_cons_pos cs (by simp [hc])]
        exact ih.2
      · rw [subRunsSkip_cons_neg cs (by simp [hc])]
        rw [noAdj_cons]
        exact ⟨fun y _ hcon => hc hcon.1, ih.1⟩

/-- On an underscore-collapsed list the underscore-collapsing pass is the
identity. -/
theorem subRuns_und_eq_self :
    ∀ (l : List Char),
      (NoAdj l → subRuns (fun c => c = '_') l = l) ∧
      ((∀ y, l.head? = some y → ¬(y = '_')) → NoAdj l →
        subRunsSkip (fun c => c = '_') l = l) := by
  intro l
  induction l with
  | nil => exact ⟨fun _ => rfl, fun _ _ => rfl⟩
  | cons c cs ih =>
    constructor
    · intro hch
      rw [noAdj_cons] at hch
      by_cases hc : c = '_'
      · subst hc
        rw [subRuns_cons_pos cs (by simp)]
        have htail : subRunsSkip (fun c => decide (c = '_')) cs = cs := by
          refine ih.2 (fun y hy hy' => ?_) hch.2
          exact hch.1 y hy ⟨rfl, hy'⟩
        rw [htail]
      · rw [subRuns_cons_neg cs (by simp [hc])]
        rw [ih.1 hch.2]
    · intro hhead hch
      rw [noAdj_cons] at hch
      have hc : ¬(c = '_') := hhead c rfl
      rw [subRunsSkip_cons_neg cs (by simp [hc])]
      rw [ih.1 hch.2]

/-- `dropWhile` leaves a list whose head fails the predicate. -/
theorem head_dropWhile_not {p : Char → Bool} :
    ∀ {l : List Char} {c : Char}, (l.dropWhile p).head? = some c → p c = false := by
  intro l
  induction l with
  | nil => intro c h; simp at h
  | cons d ds ih =>
    intro c h
    by_cases hd : p d = true
    · rw [List.dropWhile_cons_of_pos hd] at h
      exact ih h
    · rw [List.dropWhile_cons_of_neg hd] at h
      simp only [List.head?_cons, Option.some.injEq] at h
      subst h
      simpa using hd

/-- `dropWhile` keeps the last element of a nonempty result. -/
theorem getLast_dropWhile_mem {p : Char → Bool} {l : List Char} {c : Char}
    (h : (l.dropWhile p).getLast? = some c) : l.getLast? = some c := by
  obtain ⟨t, ht⟩ := @List.dropWhile_suffix Char l p
  rw [← ht, List.getLast?_append, h]
  rfl

theorem stripWhile_head {p : Char → Bool} {l : List Char} {c : Char}
    (h : (stripWhile p l).head? = some c) : p c = false := by
  unfold stripWhile at h
  rw [List.head?_reverse] at h
  have h2 := getLast_dropWhile_mem h
  rw [List.getLast?_reverse] at h2
  exact head_dropWhile_not h2

theorem stripWhile_last {p : Char → Bool} {l : List Char} {c : Char}
    (h : (stripWhile p l).getLast? = some c) : p c = false := by
  unfold stripWhile at h
  rw [List.getLast?_reverse] at h
  exact head_dropWhile_not h

theorem stripWhile_sublist (p : Char → Bool) (l : List Char) :
    (stripWhile p l).Sublist l := by
  unfold stripWhile
  have h1 : ((l.dropWhile p).reverse.dropWhile p).Sublist (l.dropWhile p).reverse :=
    List.dropWhile_sublist p
  have h2 := h1.reverse
  rw [List.reverse_reverse] at h2
  exact h2.trans (List.dropWhile_sublist p)

theorem stripWhile_eq_self {p : Char → Bool} {l : List Char}
    (h1 : ∀ c, l.head? = some c → p c = false)
    (h2 : ∀ c, l.getLast? = some c → p c = false) : stripWhile p l = l := by
  unfold stripWhile
  have hd : l.dropWhile p = l := by
    cases l with
    | nil => rfl
    | cons c cs =>
      rw [List.dropWhile_cons_of_neg]
      simp [h1 c rfl]
  rw [hd]
  have hrd : l.reverse.dropWhile p = l.reverse := by
    cases hl : l.reverse with
    | nil => rfl
    | cons c cs =>
      rw [List.dropWhile_cons_of_neg]
      have : l.getLast? = some c := by
        rw [← List.head?_reverse, hl]; rfl
      simp [h2 c this]
  rw [hrd, List.reverse_reverse]

/-! ## The slug invariant -/

theorem underscore_isWord : isWordChar '_' = true := by decide

theorem mem_v3_word {v2 : List Char} :
    ∀ c ∈ subRuns (fun c => ! isWordChar c) v2, isWordChar c = true := by
  intro c hc
  rcases mem_subRuns.1 c hc with rfl | ⟨h1, _⟩
  · exact underscore_isWord
  · simpa using h1

theorem mem_v4_word {v3 : List Char} (h3 : ∀ c ∈ v3, isWordChar c = true) :
    ∀ c ∈ subRuns (fun c => c = '_') v3, isWordChar c = true := by
  intro c hc
  rcases mem_subRuns.1 c hc with rfl | ⟨_, h2⟩
  · exact underscore_isWord
  · exact h3 c h2

theorem slugifyCore_chars {l : List Char} :
    ∀ c ∈ slugifyCore l, isLowerWord c = true := by
  intro c hc
  simp only [slugifyCore] at hc
  rw [List.mem_map] at hc
  obtain ⟨d, hd, rfl⟩ := hc
  have hd4 := (stripWhile_sublist _ _).mem hd
  exact isLowerWord_pyLower (mem_v4_word mem_v3_word d hd4)

theorem noAdj_reverse {l : List Char} (h : NoAdj l) : NoAdj l.reverse := by
  unfold NoAdj at h ⊢
  rw [List.chain'_reverse]
  exact h.imp (fun a b hab => fun hcon => hab ⟨hcon.2, hcon.1⟩)

theorem noAdj_stripWhile {p : Char → Bool} {l : List Char} (h : NoAdj l) :
    NoAdj (stripWhile p l) := by
  unfold stripWhile
  apply noAdj_reverse
  apply List.Chain'.suffix _ (List.dropWhile_suffix p)
  apply noAdj_reverse
  exact List.Chain'.suffix h (List.dropWhile_suffix p)

theorem noAdj_map_pyLower {l : List Char} (h : NoAdj l) :
    NoAdj (l.map pyLower) := by
  unfold NoAdj at h ⊢
  apply List.chain'_map_of_chain' pyLower _ h
  intro a b hab hcon
  exact hab ⟨pyLower_eq_underscore_iff.mp hcon.1, pyLower_eq_underscore_iff.mp hcon.2⟩

theorem slugifyCore_noAdj (l : List Char) : NoAdj (slugifyCore l) := by
  simp only [slugifyCore]
  apply noAdj_map_pyLower
  apply noAdj_stripWhile
  exact (noAdj_subRuns_und _).1

theorem stripWhile_und_head_ne (v : List Char) :
    (stripWhile (fun c => c = '_') v).head? ≠ some '_' := by
  intro h
  have := stripWhile_head h
  simp at this

theorem stripWhile_und_last_ne (v : List Char) :
    (stripWhile (fun c => c = '_') v).getLast? ≠ some '_' := by
  intro h
  have := stripWhile_last h
  simp at this

theorem map_pyLower_head_ne {v : List Char} (hv : v.head? ≠ some '_') :
    (v.map pyLower).head? ≠ some '_' := by
  intro h
  rw [List.head?_map] at h
  cases hh : v.head? with
  | none => rw [hh] at h; exact Option.noConfusion h
  | some d =>
    rw [hh] at h
    simp only [Option.map_some', Option.some.injEq] at h
    rw [pyLower_eq_underscore_iff.mp h] at hh
    exact hv hh

theorem map_pyLower_last_ne {v : List Char} (hv : v.getLast? ≠ some '_') :
    (v.map pyLower).getLast? ≠ some '_' := by
  intro h
  rw [List.getLast?_map] at h
  cases hh : v.getLast? with
  | none => rw [hh] at h; exact Option.noConfusion h
  | some d =>
    rw [hh] at h
    simp only [Option.map_some', Option.some.injEq] at h
    rw [pyLower_eq_underscore_iff.mp h] at hh
    exact hv hh

theorem slugifyCore_head (l : List Char) : (slugifyCore l).head? ≠ some '_' := by
  simp only [slugifyCore]
  exact map_pyLower_head_ne (stripWhile_und_head_ne _)

theorem slugifyCore_last (l : List Char) : (slugifyCore l).getLast? ≠ some '_' := by
  simp only [slugifyCore]
  exact map_pyLower_last_ne (stripWhile_und_last_ne _)

theorem noAdj_distrito : NoAdj ['d', 'i', 's', 't', 'r', 'i', 't', 'o'] := by
  unfold NoAdj
  simp only [List.chain'_cons, List.chain'_singleton, and_true]
  decide

theorem slugP_distrito : SlugP "distrito".data := by
  refine ⟨by decide, by decide, noAdj_distrito, by decide, by decide⟩

/-- Every output of `slugifyL` satisfies the slug invariant. -/
theorem slugP_slugifyL (l : List Char) : SlugP (slugifyL l) := by
  unfold slugifyL
  by_cases h : slugifyCore l = []
  · rw [if_pos h]
    exact slugP_distrito
  · rw [if_neg h]
    exact ⟨h, slugifyCore_chars, slugifyCore_noAdj l, slugifyCore_head l,
      slugifyCore_last l⟩

theorem map_pyLower_id {l : List Char} (h : ∀ c ∈ l, isLowerWord c = true) :
    l.map pyLower = l := by
  induction l with
  | nil => rfl
  | cons c cs ih =>
    rw [List.map_cons, pyLower_fixed (h c (List.mem_cons_self _ _)),
      ih (fun d hd => h d (List.mem_cons_of_mem c hd))]

/-- The slug invariant makes every pass of `slugify` the identity. -/
theorem slugifyL_fixed {l : List Char} (h : SlugP l) : slugifyL l = l := by
  obtain ⟨hne, hchars, hadj, hhead, hlast⟩ := h
  have hnospace : ∀ c ∈ l, pyIsSpace c = false :=
    fun c hc => isLowerWord_not_space (hchars c hc)
  have hv1 : stripWhile pyIsSpace l = l := by
    apply stripWhile_eq_self
    · exact fun c hc => hnospace c (List.mem_of_mem_head? (Option.mem_def.mpr hc))
    · exact fun c hc => hnospace c (List.mem_of_mem_getLast? (Option.mem_def.mpr hc))
  have hv2 : subRuns pyIsSpace l = l := (subRuns_eq_self hnospace).1
  have hv3 : subRuns (fun c => ! isWordChar c) l = l := by
    apply (subRuns_eq_self _).1
    intro c hc
    simp [isLowerWord_isWord (hchars c hc)]
  have hv4 : subRuns (fun c => c = '_') l = l := (subRuns_und_eq_self l).1 hadj
  have hv5 : stripWhile (fun c => c = '_') l = l := by
    apply stripWhile_eq_self
    · intro c hc
      simp only [decide_eq_false_iff_not]
      intro hcon
      subst hcon
      exact hhead hc
    · intro c hc
      simp only [decide_eq_false_iff_not]
      intro hcon
      subst hcon
      exact hlast hc
  have hcore : slugifyCore l = l := by
    simp only [slugifyCore]
    rw [hv1, hv2, hv3, hv4, hv5, map_pyLower_id hchars]
  unfold slugifyL
  rw [hcore, if_neg hne]

/-! ## Claims C4 and C5: `slugify` -/

/-- C4: `slugify` trims surrounding whitespace, collapses internal
whitespace runs to single underscores, replaces every character outside
`[A-Za-z0-9_]` with underscore, collapses repeated underscores, strips
leading/trailing underscores, lowercases, and returns `"distrito"` when the
result is empty (all of which is the definition of `slugify`,
`slugifyCore`); consequently the result is always non-empty, lowercase and
matches `^[a-z0-9_]+$` (every character is in `[a-z0-9_]`). -/
theorem claim_C4 (s : String) :
    (slugifyCore s.data = [] → slugify s = "distrito") ∧
    slugify s ≠ "" ∧
    (∀ c ∈ (slugify s).data, isLowerWord c = true) := by
  refine ⟨fun h => ?_, fun h => ?_, ?_⟩
  · show (⟨slugifyL s.data⟩ : String) = "distrito"
    unfold slugifyL
    rw [if_pos h]
  · have hne := (slugP_slugifyL s.data).1
    have : (slugify s).data = "".data := by rw [h]
    exact hne this
  · exact (slugP_slugifyL s.data).2.1

theorem claim_C4_witness :
    slugify " ?! " = "distrito" ∧ slugify " Área 51 " ≠ "" ∧
    (∀ c ∈ (slugify " Área 51 ").data, isLowerWord c = true) :=
  ⟨(claim_C4 " ?! ").1 (by decide), (claim_C4 " Área 51 ").2.1,
    (claim_C4 " Área 51 ").2.2⟩

/-- C5: `slugify` is idempotent: `slugify (slugify x) = slugify x` for every
string `x`. -/
theorem claim_C5 (s : String) : slugify (slugify s) = slugify s := by
  show (⟨slugifyL (slugifyL s.data)⟩ : String) = ⟨slugifyL s.data⟩
  rw [slugifyL_fixed (slugP_slugifyL s.data)]

/-! ## Claim C1: coordinate parsing -/

theorem wsTokens_cons_pos {c : Char} (cs : List Char) (h : pyIsSpace c = true) :
    wsTokens (c :: cs) = wsTokens cs := by
  simp [wsTokens, h]

theorem wsTokens_cons_neg {c : Char} (cs : List Char) (h : pyIsSpace c = false) :
    wsTokens (c :: cs) =
      (c :: cs.takeWhile (fun d => ! pyIsSpace d)) :: wsTokensAfter cs := by
  simp [wsTokens, h]

theorem wsTokensAfter_cons_pos {c : Char} (cs : List Char) (h : pyIsSpace c = true) :
    wsTokensAfter (c :: cs) = wsTokens cs := by
  simp [wsTokensAfter, h]

theorem wsTokensAfter_cons_neg {c : Char} (cs : List Char) (h : pyIsSpace c = false) :
    wsTokensAfter (c :: cs) = wsTokensAfter cs := by
  simp [wsTokensAfter, h]

theorem wsTokensAfter_eq :
    ∀ l : List Char,
      wsTokensAfter l = wsTokens (l.dropWhile (fun d => ! pyIsSpace d)) := by
  intro l
  induction l with
  | nil => rfl
  | cons c cs ih =>
    cases hc : pyIsSpace c with
    | true =>
      rw [wsTokensAfter_cons_pos cs hc,
        List.dropWhile_cons_of_neg (by simp [hc]), wsTokens_cons_pos cs hc]
    | false =>
      rw [wsTokensAfter_cons_neg cs hc, ih,
        List.dropWhile_cons_of_pos (by simp [hc])]

theorem wsTokens_all_space :
    ∀ {l : List Char}, (∀ c ∈ l, pyIsSpace c = true) → wsTokens l = [] := by
  intro l
  induction l with
  | nil => intro _; rfl
  | cons c cs ih =>
    intro h
    rw [wsTokens_cons_pos cs (h c (List.mem_cons_self _ _))]
    exact ih (fun d hd => h d (List.mem_cons_of_mem c hd))

theorem wsTokens_dropWhile_space :
    ∀ l : List Char, wsTokens (l.dropWhile pyIsSpace) = wsTokens l := by
  intro l
  induction l with
  | nil => rfl
  | cons c cs ih =>
    cases hc : pyIsSpace c with
    | true => rw [List.dropWhile_cons_of_pos hc, ih, wsTokens_cons_pos cs hc]
    | false => rw [List.dropWhile_cons_of_neg (by simp [hc])]

theorem takeWhile_nonspace_append {r : List Char}
    (hr : ∀ c ∈ r, pyIsSpace c = true) :
    ∀ cs : List Char,
      (cs ++ r).takeWhile (fun d => ! pyIsSpace d) =
        cs.takeWhile (fun d => ! pyIsSpace d) := by
  intro cs
  induction cs with
  | nil =>
    simp only [List.nil_append, List.takeWhile_nil]
    cases r with
    | nil => rfl
    | cons a rs =>
      rw [List.takeWhile_cons_of_neg]
      simp [hr a (List.mem_cons_self _ _)]
  | cons c cs ih =>
    cases hc : pyIsSpace c with
    | true =>
      rw [List.cons_append, List.takeWhile_cons_of_neg (by simp [hc]),
        List.takeWhile_cons_of_neg (by simp [hc])]
    | false =>
      rw [List.cons_append, List.takeWhile_cons_of_pos (by simp [hc]),
        List.takeWhile_cons_of_pos (by simp [hc]), ih]

theorem dropWhile_nonspace_append {r : List Char}
    (hr : ∀ c ∈ r, pyIsSpace c = true) :
    ∀ cs : List Char,
      (cs ++ r).dropWhile (fun d => ! pyIsSpace d) =
        cs.dropWhile (fun d => ! pyIsSpace d) ++ r := by
  intro cs
  induction cs with
  | nil =>
    simp only [List.nil_append, List.dropWhile_nil]
    cases r with
    | nil => rfl
    | cons a rs =>
      rw [List.dropWhile_cons_of_neg]
      simp [hr a (List.mem_cons_self _ _)]
  | cons c cs ih =>
    cases hc : pyIsSpace c with
    | true =>
      rw [List.cons_append, List.dropWhile_cons_of_neg (by simp [hc]),
        List.dropWhile_cons_of_neg (by simp [hc]), List.cons_append]
    | false =>
      rw [List.cons_append, List.dropWhile_cons_of_pos (by simp [hc]),
        List.dropWhile_cons_of_pos (by simp [hc]), ih]

theorem wsTokens_append_space :
    ∀ (n : Nat) (l r : List Char), l.length ≤ n →
      (∀ c ∈ r, pyIsSpace c = true) → wsTokens (l ++ r) = wsTokens l := by
  intro n
  induction n with
  | zero =>
    intro l r hl hr
    have : l = [] := List.length_eq_zero.mp (Nat.le_zero.mp hl)
    subst this
    rw [List.nil_append]
    exact wsTokens_all_space hr
  | succ n ih =>
    intro l r hl hr
    cases l with
    | nil =>
      rw [List.nil_append]
      exact wsTokens_all_space hr
    | cons c cs =>
      rw [List.length_cons, Nat.succ_le_succ_iff] at hl
      cases hc : pyIsSpace c with
      | true =>
        rw [List.cons_append, wsTokens_cons_pos _ hc, wsTokens_cons_pos cs hc]
        exact ih cs r hl hr
      | false =>
        rw [List.cons_append, wsTokens_cons_neg _ hc, wsTokens_cons_neg cs hc,
          takeWhile_nonspace_append hr, wsTokensAfter_eq, wsTokensAfter_eq,
          dropWhile_nonspace_append hr]
        have hlen : (cs.dropWhile (fun d => ! pyIsSpace d)).length ≤ n :=
          Nat.le_trans (List.dropWhile_sublist _).length_le hl
        rw [ih _ r hlen hr]

theorem map_id_of_fixed {f : Char → Char} :
    ∀ {l : List Char}, (∀ c ∈ l, f c = c) → l.map f = l := by
  intro l
  induction l with
  | nil => intro _; rfl
  | cons c cs ih =>
    intro h
    rw [List.map_cons, h c (List.mem_cons_self _ _),
      ih (fun d hd => h d (List.mem_cons_of_mem c hd))]

theorem wsTokens_map_eq {f : Char → Char}
    (hf1 : ∀ c, pyIsSpace (f c) = pyIsSpace c)
    (hf2 : ∀ c, pyIsSpace c = false → f c = c) :
    ∀ (n : Nat) (l : List Char), l.length ≤ n →
      wsTokens (l.map f) = wsTokens l := by
  have hq : ((fun d => ! pyIsSpace d) ∘ f) = (fun d => ! pyIsSpace d) := by
    funext d
    simp only [Function.comp_apply]
    rw [hf1]
  intro n
  induction n with
  | zero =>
    intro l hl
    have : l = [] := List.length_eq_zero.mp (Nat.le_zero.mp hl)
    subst this
    rfl
  | succ n ih =>
    intro l hl
    cases l with
    | nil => rfl
    | cons c cs =>
      rw [List.length_cons, Nat.succ_le_succ_iff] at hl
      cases hc : pyIsSpace c with
      | true =>
        rw [List.map_cons, wsTokens_cons_pos _ (by rw [hf1]; exact hc),
          wsTokens_cons_pos cs hc]
        exact ih cs hl
      | false =>
        rw [List.map_cons, hf2 c hc, wsTokens_cons_neg _ hc,
          wsTokens_cons_neg cs hc]
        congr 1
        · congr 1
          rw [List.takeWhile_map, hq]
          apply map_id_of_fixed
          intro d hd
          have := List.mem_takeWhile_imp hd
          simp only [Bool.not_eq_true'] at this
          exact hf2 d this
        · rw [wsTokensAfter_eq, wsTokensAfter_eq, List.dropWhile_map, hq]
          exact ih _ (Nat.le_trans (List.dropWhile_sublist _).length_le hl)

theorem wsTokens_stripWhile (l : List Char) :
    wsTokens (stripWhile pyIsSpace l) = wsTokens l := by
  unfold stripWhile
  have hdecomp :
      l.dropWhile pyIsSpace =
        ((l.dropWhile pyIsSpace).reverse.dropWhile pyIsSpace).reverse ++
          ((l.dropWhile pyIsSpace).reverse.takeWhile pyIsSpace).reverse := by
    conv_lhs => rw [← List.reverse_reverse (l.dropWhile pyIsSpace)]
    rw [← List.reverse_append, List.takeWhile_append_dropWhile]
  have htail : ∀ c ∈ ((l.dropWhile pyIsSpace).reverse.takeWhile pyIsSpace).reverse,
      pyIsSpace c = true := by
    intro c hc
    rw [List.mem_reverse] at hc
    exact List.mem_takeWhile_imp hc
  calc wsTokens ((l.dropWhile pyIsSpace).reverse.dropWhile pyIsSpace).reverse
      = wsTokens (((l.dropWhile pyIsSpace).reverse.dropWhile pyIsSpace).reverse ++
          ((l.dropWhile pyIsSpace).reverse.takeWhile pyIsSpace).reverse) := by
        rw [wsTokens_append_space _ _ _ (Nat.le_refl _) htail]
    _ = wsTokens (l.dropWhile pyIsSpace) := by rw [← hdecomp]
    _ = wsTokens l := wsTokens_dropWhile_space l

theorem coordOfParts_eq (parts : List (List Char)) :
    coordOfParts parts =
      match parts with
      | f0 :: f1 :: _ =>
        match pyFloatOfChars f0, pyFloatOfChars f1 with
        | some lon, some lat => some (lon, lat)
        | _, _ => none
      | _ => none := by
  unfold coordOfParts
  rcases parts with _ | ⟨f0, _ | ⟨f1, rest⟩⟩
  · rw [dif_neg (by simp)]
  · rw [dif_neg (by simp)]
  · rw [dif_pos (by simp)]
    rfl

theorem coordOfToken_eq_spec (t : List Char) : coordOfToken t = tokenPointSpec t := by
  unfold coordOfToken tokenPointSpec
  rw [coordOfParts_eq]

/-- C1: for every coordinate text, parsing splits it on arbitrary
whitespace into tokens and splits each token on commas; every token whose
first two fields parse as floats contributes exactly the point
`(lon, lat)` (a third altitude field is ignored), and every other token
(fewer than two comma-separated fields, or a non-numeric first or second
field) is dropped without affecting the points of the sibling tokens:
`_parse_coordinates` is exactly `filterMap tokenPointSpec` over the
whitespace-split tokens of the original text. -/
theorem claim_C1 (s : String) :
    parseCoordinates (some s) = (wsTokens s.data).filterMap tokenPointSpec := by
  unfold parseCoordinates
  dsimp only
  by_cases hs : s = ""
  · subst hs
    rfl
  · rw [if_neg hs]
    have hf1 : ∀ c : Char,
        pyIsSpace (if c = '\n' then ' ' else c) = pyIsSpace c := by
      intro c
      by_cases hc : c = '\n'
      · subst hc; rfl
      · rw [if_neg hc]
    have hg1 : ∀ c : Char,
        pyIsSpace (if c = '\t' then ' ' else c) = pyIsSpace c := by
      intro c
      by_cases hc : c = '\t'
      · subst hc; rfl
      · rw [if_neg hc]
    have hf2 : ∀ c : Char, pyIsSpace c = false → (if c = '\n' then ' ' else c) = c := by
      intro c hc
      rw [if_neg]
      intro h
      subst h
      exact absurd hc (by decide)
    have hg2 : ∀ c : Char, pyIsSpace c = false → (if c = '\t' then ' ' else c) = c := by
      intro c hc
      rw [if_neg]
      intro h
      subst h
      exact absurd hc (by decide)
    rw [wsTokens_map_eq hg1 hg2 _ _ (Nat.le_refl _),
      wsTokens_map_eq hf1 hf2 _ _ (Nat.le_refl _),
      wsTokens_stripWhile]
    apply List.filterMap_congr
    intro t _
    exact coordOfToken_eq_spec t

/-! ## Claims C6, C7, C10: the geometry extractor -/

theorem processPoly_some {poly : Element} {q : Polygon}
    (h : processPoly poly = some q) :
    ∃ el, selectedOuterEl poly = some el ∧
      q.outer = parseCoordinates el.textOf ∧ q.outer ≠ [] ∧
      q.inners = collectedInners poly := by
  unfold processPoly at h
  cases hsel : selectedOuterEl poly with
  | none => rw [hsel] at h; exact absurd h (by simp)
  | some el =>
    rw [hsel] at h
    dsimp only at h
    by_cases ho : parseCoordinates el.textOf ≠ []
    · rw [if_pos ho] at h
      refine ⟨el, rfl, ?_, ?_, ?_⟩
      · rw [← Option.some_inj.mp h]
      · rw [← Option.some_inj.mp h]
        exact ho
      · rw [← Option.some_inj.mp h]
    · rw [if_neg ho] at h
      exact absurd h (by simp)

/-- C6: every polygon in the extractor's output has a non-empty outer ring;
a polygon whose outer ring parses to zero points is never included. -/
theorem claim_C6 {root : Element} {q : Polygon}
    (hq : q ∈ collectPolygons root) : q.outer ≠ [] := by
  unfold collectPolygons at hq
  rw [List.mem_filterMap] at hq
  obtain ⟨poly, _, hp⟩ := hq
  obtain ⟨el, _, _, hne, _⟩ := processPoly_some hp
  exact hne

theorem claim_C6_witness :
    (⟨[(.finite 1 0, .finite 2 0), (.finite 3 0, .finite 4 0)], []⟩ : Polygon) ∈
        collectPolygons exRoot ∧
    (⟨[(.finite 1 0, .finite 2 0), (.finite 3 0, .finite 4 0)], []⟩ : Polygon).outer ≠ [] :=
  ⟨by decide, @claim_C6 exRoot _ (by decide)⟩

/-- C7 counterexample: the claim says the extractor falls back to a direct
linear ring only when the nested-path element is absent.  In
`cxPolygonEl` the nested-path element is present (with blank text), yet
the code's result differs from the only-when-absent reading: the code
falls back to the inner boundary's ring and keeps the polygon, while the
claimed behaviour parses the blank text and drops the polygon. -/
theorem claim_C7_counterexample :
    (outerCoordsEl cxPolygonEl).isSome = true ∧
    collectPolygons cxRoot =
      [⟨[(.finite 5 0, .finite 6 0)], [[(.finite 5 0, .finite 6 0)]]⟩] ∧
    collectPolygonsSpecC7 cxRoot = [] := by
  exact ⟨rfl, by decide, by decide⟩

/-- C7 (amended): the extractor locates the outer ring's coordinate text
via the nested path outer-boundary → linear-ring → coordinates, and falls
back to a direct linear-ring's coordinate text exactly when that element
is absent **or its text is blank** (absent, empty or whitespace-only). -/
theorem claim_C7_amended (poly : Element) :
    (∀ el, outerCoordsEl poly = some el → blankText el.textOf = false →
      selectedOuterEl poly = some el) ∧
    (∀ el, outerCoordsEl poly = some el → blankText el.textOf = true →
      selectedOuterEl poly = fallbackCoordsEl poly) ∧
    (outerCoordsEl poly = none → selectedOuterEl poly = fallbackCoordsEl poly) := by
  refine ⟨fun el hel hb => ?_, fun el hel hb => ?_, fun hel => ?_⟩
  · unfold selectedOuterEl
    rw [hel]
    simp [hb]
  · unfold selectedOuterEl
    rw [hel]
    simp [hb]
  · unfold selectedOuterEl
    rw [hel]

theorem claim_C7_amended_witness :
    outerCoordsEl cxPolygonEl = some (coordsEl (some " ")) ∧
    blankText (coordsEl (some " ")).textOf = true ∧
    selectedOuterEl cxPolygonEl = fallbackCoordsEl cxPolygonEl :=
  ⟨rfl, by decide, (claim_C7_amended cxPolygonEl).2.1 _ rfl (by decide)⟩

theorem collectedInners_eq (poly : Element) :
    collectedInners poly =
      ((innerCoordsEls poly).filter (fun inn => ! blankText inn.textOf)).map
        (fun inn => parseCoordinates inn.textOf) := by
  unfold collectedInners
  rw [← List.filterMap_eq_map, List.filterMap_filter]
  apply List.filterMap_congr
  intro inn _
  cases ht : inn.textOf with
  | none =>
    simp [blankText, ht, pyStrip, stripWhile]
  | some t =>
    by_cases hb : pyStrip t = ""
    · have ht' : blankText (some t) = true := by
        simp [blankText, hb]
      simp only [ht', Bool.not_true, Bool.false_and, ht]
      rw [if_neg]
      · simp
      · intro hcon
        exact hcon.2 hb
    · have ht' : blankText (some t) = false := by
        simp [blankText, hb]
      have htne : t ≠ "" := by
        intro hcon
        subst hcon
        exact hb rfl
      simp only [ht', Bool.not_false, Bool.true_and, ht]
      rw [if_pos ⟨htne, hb⟩]
      simp [ht]

/-- C10: for every retained polygon, an inner-boundary ring whose
coordinate text is absent or blank is dropped, while one whose text is
non-blank is kept — as the parse of that text, which may well be the empty
ring — and, unlike the inner rings, the outer ring must be non-empty. -/
theorem claim_C10 (poly : Element) (q : Polygon)
    (h : processPoly poly = some q) :
    q.inners =
      ((innerCoordsEls poly).filter (fun inn => ! blankText inn.textOf)).map
        (fun inn => parseCoordinates inn.textOf) ∧
    q.outer ≠ [] := by
  obtain ⟨el, _, _, hne, hin⟩ := processPoly_some h
  exact ⟨hin.trans (collectedInners_eq poly), hne⟩

theorem claim_C10_witness :
    processPoly ex10PolygonEl = some ⟨[(.finite 1 0, .finite 2 0)], [[]]⟩ ∧
    (⟨[(.finite 1 0, .finite 2 0)], [[]]⟩ : Polygon).inners =
      ((innerCoordsEls ex10PolygonEl).filter (fun inn => ! blankText inn.textOf)).map
        (fun inn => parseCoordinates inn.textOf) ∧
    (⟨[(.finite 1 0, .finite 2 0)], [[]]⟩ : Polygon).outer ≠ [] := by
  refine ⟨by decide, ?_, ?_⟩
  · exact (claim_C10 ex10PolygonEl _ (by decide)).1
  · exact (claim_C10 ex10PolygonEl _ (by decide)).2

/-! ## Claim C3: name resolution -/

theorem bestName_key (el : Option Element) :
    (truthyStr (findtextOf el) = true →
      ∃ v, findtextOf el = some v ∧ nonBlankText el = some v) ∧
    (truthyStr (findtextOf el) = false → nonBlankText el = none) := by
  cases el with
  | none => exact ⟨fun h => by simp [findtextOf, truthyStr] at h, fun _ => rfl⟩
  | some e =>
    cases ht : e.textOf with
    | none =>
      refine ⟨fun h => ?_, fun _ => ?_⟩
      · simp [findtextOf, ht, truthyStr] at h
      · simp [nonBlankText, ht]
    | some t =>
      by_cases hemp : t = ""
      · subst hemp
        refine ⟨fun h => ?_, fun _ => ?_⟩
        · simp [findtextOf, ht, truthyStr] at h
        · simp [nonBlankText, ht, pyStrip, stripWhile]
      · by_cases hb : pyStrip t = ""
        · refine ⟨fun h => ?_, fun _ => ?_⟩
          · simp [findtextOf, ht, hemp, truthyStr, hb] at h
          · simp [nonBlankText, ht, hb]
        · refine ⟨fun _ => ?_, fun h => ?_⟩
          · refine ⟨pyStrip t, ?_, ?_⟩
            · simp [findtextOf, ht, hemp]
            · simp [nonBlankText, ht, hb]
          · simp [findtextOf, ht, hemp, truthyStr, hb] at h

/-- C3: the resolved display name is the (stripped) text of the first
placemark name element when present and non-blank, else the (stripped)
text of the document name element when present and non-blank, else the
fallback (the file's base name without extension). -/
theorem claim_C3 (root : Element) (fallback : String) :
    bestNameFromXml root fallback =
      (nonBlankText (placemarkNameEl root)).getD
        ((nonBlankText (documentNameEl root)).getD fallback) := by
  unfold bestNameFromXml
  dsimp only
  cases h1 : truthyStr (findtextOf (placemarkNameEl root)) with
  | true =>
    obtain ⟨v, hf, hnb⟩ := (bestName_key _).1 h1
    rw [hf, hnb, if_pos rfl]
    rfl
  | false =>
    rw [if_neg (by simp), (bestName_key _).2 h1]
    simp only [Option.getD_none]
    cases h2 : truthyStr (findtextOf (documentNameEl root)) with
    | true =>
      obtain ⟨v2, hf2, hnb2⟩ := (bestName_key _).1 h2
      rw [hf2, hnb2, if_pos rfl]
      rfl
    | false =>
      rw [if_neg (by simp), (bestName_key _).2 h2]
      simp only [Option.getD_none]

/-! ## Claim C2: the document emitter -/

/-- C2: a record with exactly one polygon is emitted as a single styled
polygon feature named with the display name, rings verbatim; a record with
`N > 1` polygons is emitted as one grouping feature named with the display
name holding exactly `N` styled polygon sub-features, the `i`-th (1-based,
source order) named `"{name} #{i}"`; and every emitted polygon carries the
one shared style. -/
theorem claim_C2 (name : String) (ps : List Polygon) :
    (∀ p, ps = [p] →
      emitFeatures name ps =
        [.polygon ⟨name, p.outer, p.inners, sharedStyle⟩]) ∧
    (2 ≤ ps.length → ∃ subs,
      emitFeatures name ps = [.multigeometry name subs] ∧
      subs.length = ps.length ∧
      (∀ i (hi : i < subs.length) (hj : i < ps.length),
        subs.get ⟨i, hi⟩ =
          ⟨name ++ " #" ++ toString (i + 1),
            (ps.get ⟨i, hj⟩).outer, (ps.get ⟨i, hj⟩).inners, sharedStyle⟩)) ∧
    (∀ f ∈ emitFeatures name ps,
      (∀ q, f = .polygon q → q.style = sharedStyle) ∧
      (∀ nm subs, f = .multigeometry nm subs → ∀ q ∈ subs, q.style = sharedStyle)) := by
  refine ⟨fun p hp => ?_, fun hlen => ?_, ?_⟩
  · subst hp
    rfl
  · match ps, hlen with
    | p :: q :: rest, _ =>
      refine ⟨_, rfl, by simp, ?_⟩
      intro i hi hj
      rw [List.get_eq_getElem, List.get_eq_getElem, List.getElem_map,
        List.getElem_enumFrom]
      simp only [putPolygon]
      rw [Nat.add_comm 1 i]
  · intro f hf
    constructor
    · intro q hq
      match ps, hf with
      | [p], hf =>
        simp only [emitFeatures, List.mem_singleton] at hf
        subst hf
        simp only [Feature.polygon.injEq] at hq
        rw [← hq]
        rfl
      | [], hf =>
        simp only [emitFeatures, List.mem_singleton] at hf
        subst hf
        exact absurd hq (by simp)
      | p1 :: p2 :: rest, hf =>
        simp only [emitFeatures, List.mem_singleton] at hf
        subst hf
        exact absurd hq (by simp)
    · intro nm subs hq q hqs
      match ps, hf with
      | [p], hf =>
        simp only [emitFeatures, List.mem_singleton] at hf
        subst hf
        exact absurd hq (by simp)
      | [], hf =>
        simp only [emitFeatures, List.mem_singleton] at hf
        subst hf
        simp only [Feature.multigeometry.injEq] at hq
        rw [← hq.2] at hqs
        simp at hqs
      | p1 :: p2 :: rest, hf =>
        simp only [emitFeatures, List.mem_singleton] at hf
        subst hf
        simp only [Feature.multigeometry.injEq] at hq
        rw [← hq.2] at hqs
        rw [List.mem_map] at hqs
        obtain ⟨ip, _, hip⟩ := hqs
        rw [← hip]
        rfl

theorem claim_C2_witness :
    emitFeatures "D" [exPolyA] =
      [.polygon ⟨"D", exPolyA.outer, exPolyA.inners, sharedStyle⟩] ∧
    ∃ subs, emitFeatures "D" [exPolyA, exPolyB] = [.multigeometry "D" subs] ∧
      subs.length = 2 ∧
      (∀ i (hi : i < subs.length) (hj : i < ([exPolyA, exPolyB] : List Polygon).length),
        subs.get ⟨i, hi⟩ =
          ⟨"D" ++ " #" ++ toString (i + 1),
            (([exPolyA, exPolyB] : List Polygon).get ⟨i, hj⟩).outer,
            (([exPolyA, exPolyB] : List Polygon).get ⟨i, hj⟩).inners, sharedStyle⟩) := by
  refine ⟨(claim_C2 "D" [exPolyA]).1 exPolyA rfl, ?_⟩
  obtain ⟨subs, h1, h2, h3⟩ := (claim_C2 "D" [exPolyA, exPolyB]).2.1 (by decide)
  exact ⟨subs, h1, h2, h3⟩

/-! ## Claim C8: error propagation policy -/

/-- C8: per-file errors never escalate: a parse failure or a file without
a usable polygon is skipped (warning outcome, no output) while the run
continues over the remaining files and completes; only a missing input
directory or an empty file listing makes the run fatal, and a fatal run
carries no outputs. -/
theorem claim_C8 :
    (∀ f m, f.content = .parseError m →
      normalizeKmlFile f = .skippedParseError m) ∧
    (∀ f root, f.content = .parsed root → collectPolygons root = [] →
      normalizeKmlFile f = .skippedNoGeometry) ∧
    (∀ files, files ≠ [] →
      mainRun (some files) =
        .completed (writtenOutputs files) (writtenOutputs files).length) ∧
    (mainRun none = .fatal "input directory not found") ∧
    (mainRun (some []) = .fatal "no kml found") ∧
    (∀ pre post f, (∀ p d, normalizeKmlFile f ≠ .written p d) →
      writtenOutputs (pre ++ f :: post) = writtenOutputs (pre ++ post)) := by
  refine ⟨fun f m hm => ?_, fun f root hr hpoly => ?_, fun files hne => ?_,
    rfl, rfl, fun pre post f hf => ?_⟩
  · unfold normalizeKmlFile
    rw [hm]
  · unfold normalizeKmlFile
    rw [hr]
    dsimp only
    rw [if_pos hpoly]
  · match files, hne with
    | f :: rest, _ => rfl
  · unfold writtenOutputs
    rw [List.filterMap_append, List.filterMap_append, List.filterMap_cons]
    cases hout : normalizeKmlFile f with
    | written p d => exact absurd hout (by intro hcon; exact hf p d hcon)
    | skippedParseError m => rfl
    | skippedNoGeometry => rfl

theorem claim_C8_witness :
    normalizeKmlFile badParseFile = .skippedParseError "boom" ∧
    normalizeKmlFile noGeoFile = .skippedNoGeometry ∧
    mainRun (some [badParseFile, fileA, noGeoFile]) =
      .completed (writtenOutputs [badParseFile, fileA, noGeoFile])
        (writtenOutputs [badParseFile, fileA, noGeoFile]).length ∧
    writtenOutputs ([] ++ badParseFile :: [fileA]) = writtenOutputs ([] ++ [fileA]) := by
  refine ⟨claim_C8.1 badParseFile "boom" rfl, ?_, ?_, ?_⟩
  · exact claim_C8.2.1 noGeoFile _ rfl (by decide)
  · exact claim_C8.2.2.1 _ (by intro h; exact List.noConfusion h)
  · exact claim_C8.2.2.2.2.2 [] [fileA] badParseFile
      (fun p d => by intro h; exact FileOutcome.noConfusion h)

/-! ## Claim C9: same slug, last write wins -/

theorem normalize_written_path {f : InputFile} {p : String} {d : List Feature}
    (h : normalizeKmlFile f = .written p d) :
    ∃ sl, fileSlug f = some sl ∧ p = outDir ++ sl ++ ".kml" := by
  unfold normalizeKmlFile at h
  cases hc : f.content with
  | parseError m => rw [hc] at h; exact absurd h (by simp)
  | parsed root =>
    rw [hc] at h
    dsimp only at h
    by_cases hpoly : collectPolygons root = []
    · rw [if_pos hpoly] at h
      exact absurd h (by simp)
    · rw [if_neg hpoly] at h
      simp only [FileOutcome.written.injEq] at h
      refine ⟨slugify (bestNameFromXml root f.stem), ?_, h.1.symm⟩
      unfold fileSlug
      rw [hc]
      dsimp only
      rw [if_neg hpoly]

/-- C9: two files whose resolved names slugify to the same identifier write
to the same output path `{outputDir}/{slug}.kml`, and after the later file
is processed the store holds the later file's document at that path
(last-write-wins, silently). -/
theorem claim_C9 (pre mid : List InputFile) (a b : InputFile)
    (pa pb : String) (da db : List Feature)
    (ha : normalizeKmlFile a = .written pa da)
    (hb : normalizeKmlFile b = .written pb db)
    (hslug : fileSlug a = fileSlug b) :
    pa = pb ∧ runStore (pre ++ a :: mid ++ [b]) pa = some db := by
  obtain ⟨sa, hsa, hpa⟩ := normalize_written_path ha
  obtain ⟨sb, hsb, hpb⟩ := normalize_written_path hb
  have hss : sa = sb := by
    rw [hsa, hsb] at hslug
    exact Option.some_inj.mp hslug
  have hpath : pa = pb := by rw [hpa, hpb, hss]
  refine ⟨hpath, ?_⟩
  unfold runStore
  rw [show pre ++ a :: mid ++ [b] = (pre ++ a :: mid) ++ [b] by simp,
    List.foldl_append]
  simp only [List.foldl_cons, List.foldl_nil, hb]
  unfold saveAt
  rw [if_pos hpath]

theorem claim_C9_witness :
    normalizeKmlFile fileA =
      .written "web/kml/dist_a.kml"
        (emitFeatures "Dist A" [⟨[(.finite 1 0, .finite 2 0)], []⟩]) ∧
    normalizeKmlFile fileB =
      .written "web/kml/dist_a.kml"
        (emitFeatures "dist a" [⟨[(.finite 3 0, .finite 4 0)], []⟩]) ∧
    fileSlug fileA = fileSlug fileB ∧
    runStore ([] ++ fileA :: [] ++ [fileB]) "web/kml/dist_a.kml" =
      some (emitFeatures "dist a" [⟨[(.finite 3 0, .finite 4 0)], []⟩]) := by
  refine ⟨rfl, rfl, rfl, ?_⟩
  exact (claim_C9 [] [] fileA fileB "web/kml/dist_a.kml" "web/kml/dist_a.kml"
    (emitFeatures "Dist A" [⟨[(.finite 1 0, .finite 2 0)], []⟩])
    (emitFeatures "dist a" [⟨[(.finite 3 0, .finite 4 0)], []⟩])
    rfl rfl rfl).2

end BuildKmls
